import Mathlib

/-!
Verification of the normalization and merge engine of the sourcing tool
(`src/Source tool/main.js`): header canonicalization (`getMasterKey`),
row mapping, merge-fill deduplication (`normalizeData`), statistics, and
the condensed projection (`generateCondensedData`).

The embedding is a shallow one over the JavaScript source:
- a JS object (a raw or canonical record) is an insertion-ordered
  association list `List (String × Value)` with unique keys; property
  assignment `obj[k] = v` replaces the entry in place when the key is
  present and appends otherwise (`jsSet`); property read `obj[k]`
  returns `Option Value` with `none` for `undefined` (`jsGet`);
- a scalar cell value is a string or a number (`Value`); the numbers
  appearing in the engine's decisions are compared only against `0`
  (JS truthiness) and stringified, so they are embedded as `Int`;
- JS string operations `toLowerCase`, `trim`, `toUpperCase` are embedded
  as character-wise maps / whitespace stripping over the string's
  character list (`jsLower`, `jsTrim`, `jsUpper`), which agree with JS on
  the ASCII fragment the alias table and the claims use.
-/

set_option autoImplicit false

namespace SourcingTool

/-- A JS scalar cell value: a string or a number.  The engine only ever
compares numbers with `0` (truthiness) and stringifies them, so `Int`
suffices for the embedded fragment. -/
inductive Value where
  | str : String → Value
  | num : Int → Value
deriving DecidableEq, Repr

/-- JS truthiness of a scalar: `""` and `0` are falsy, everything else truthy. -/
def Value.truthy : Value → Bool
  | .str s => s ≠ ""
  | .num n => n ≠ 0

/-- JS `String(v)` on the embedded scalars. -/
def Value.jsToString : Value → String
  | .str s => s
  | .num n => toString n

/-- Drop leading whitespace characters from a character list. -/
def dropWs : List Char → List Char
  | [] => []
  | c :: cs => if c.isWhitespace then dropWs cs else c :: cs

/-- JS `s.trim()` on the ASCII fragment: strip whitespace from both ends. -/
def jsTrim (s : String) : String :=
  String.mk ((dropWs (dropWs s.data).reverse).reverse)

/-- JS `s.toLowerCase()` on the ASCII fragment: character-wise lower-casing. -/
def jsLower (s : String) : String := String.mk (s.data.map Char.toLower)

/-- JS `s.toUpperCase()` on the ASCII fragment: character-wise upper-casing. -/
def jsUpper (s : String) : String := String.mk (s.data.map Char.toUpper)

/-- A JS object used as a record: insertion-ordered association list with
unique keys. -/
abbrev Record := List (String × Value)

/-- JS property read `obj[k]`: the first entry with key `k`, `none` for
`undefined`. -/
def jsGet (r : Record) (k : String) : Option Value :=
  (r.find? (fun p => p.1 == k)).map (·.2)

/-- JS property assignment `obj[k] = v`: replace in place if the key is
present (first occurrence; keys are unique by construction), else append. -/
def jsSet : Record → String → Value → Record
  | [], k, v => [(k, v)]
  | p :: rest, k, v => if p.1 == k then (k, v) :: rest else p :: jsSet rest k v

/-- Truthiness of a JS property read: `undefined` is falsy. -/
def truthyOpt : Option Value → Bool
  | none => false
  | some v => v.truthy

/-- The alias table of `normalizeData` (main.js lines 241-254), in its
declared order: canonical field name to ordered list of recognized raw
header spellings. -/
def mapping : List (String × List String) :=
  [ ("MPN", ["Mfr Part Number", "BOM: Matched MPN", "Mrf#", "MPN", "Part Number", "LCSC#"]),
    ("Manufacturer", ["Manufacturer Name", "BOM: Manufacturer Name", "Mfr."]),
    ("Description", ["Description", "BOM: Description"]),
    ("Required Qty", ["Quantity 1", "BOM: Requested Qty", "Quantity"]),
    ("Unit Price", ["Unit Price 1 (EUR)", "BOM: Unit Price($)", "Unit Price(USD)"]),
    ("Total Price", ["Order Unit Price (EUR)", "BOM: Total Line Price($)", "Ext.Price(USD)"]),
    ("Stock Status", ["Availability", "BOM: Stock Status", "Stock Status"]),
    ("Quantity Avail.", ["BOM: Stock Availability", "Availability"]),
    ("Lead Time", ["Lead Time in Days", "BOM: Mfg Lead Time (weeks)", "Target Lead Time"]),
    ("Min/Mult (MOQ)", ["Min./Mult.", "Min / Mult"]),
    ("Datasheet", ["Datasheet URL"]),
    ("Product Link", ["Product Link"]) ]

/-- The cleaned header `rawHeader.toLowerCase().trim()` (main.js line 258). -/
def cleanHeader (h : String) : String := jsTrim (jsLower h)

/-- Whether one canonical-schema entry recognizes the header: some alias,
cleaned, equals the cleaned header (main.js line 260). -/
def entryMatches (h : String) (p : String × List String) : Bool :=
  p.2.any (fun c => cleanHeader c == cleanHeader h)

/-- The canonicalizer `getMasterKey` (main.js lines 257-265): first canonical field, in
declared schema order, one of whose aliases matches after clean-up;
passthrough of the original header when none matches. -/
def getMasterKey (rawHeader : String) : String :=
  match mapping.find? (entryMatches rawHeader) with
  | some p => p.1
  | none => rawHeader

/-- The Row Mapper (main.js lines 279-283): build a new record whose keys
are the master keys of the raw headers, in enumeration order; a later raw
header colliding on the same master key overwrites the earlier value in
place. -/
def mapRow (row : Record) : Record :=
  row.foldl (fun acc p => jsSet acc (getMasterKey p.1) p.2) []

/-- One field of the merge-fill loop (main.js lines 298-302): copy the
incoming value `v` for key `k` into `existing` only when the existing
value is `undefined` or `""` and the incoming value is not `""` (the
incoming value of an enumerated key is never `undefined`). -/
def fillField (existing : Record) (k : String) (v : Value) : Record :=
  if (jsGet existing k == none || jsGet existing k == some (.str "")) && v != .str "" then
    jsSet existing k v
  else existing

/-- The merge-fill of `normalizeData` (main.js lines 297-302): fold
`fillField` over the incoming record's entries, mutating the resident. -/
def mergeFill (existing incoming : Record) : Record :=
  incoming.foldl (fun acc p => fillField acc p.1 p.2) existing

/-- The identity key `String(mpnValue).trim().toUpperCase()` (main.js line 292). -/
def keyOfValue (v : Value) : String := jsUpper (jsTrim v.jsToString)

/-- Whether `normalizeData` treats a mapped record as having an identity:
JS truthiness of `mappedRow['MPN']` (main.js line 287). -/
def hasIdentity (r : Record) : Bool := truthyOpt (jsGet r "MPN")

/-- The identity key of a mapped record with a truthy `MPN` (main.js
line 292); `""` as a don't-care for records without one. -/
def recordKey (r : Record) : String :=
  match jsGet r "MPN" with
  | some v => keyOfValue v
  | none => ""

/-- One iteration of the `data.forEach` loop of `normalizeData` (main.js
lines 277-304) on the state `(uniqueMap, nonMpnRows)`: map the row, then
either append it to the no-identity rows (falsy `MPN`), register it under
its fresh key, or merge-fill it into the resident record of its key. -/
def normStep (acc : List (String × Record) × List Record) (row : Record) :
    List (String × Record) × List Record :=
  match jsGet (mapRow row) "MPN" with
  | none => (acc.1, acc.2 ++ [mapRow row])
  | some v =>
    if v.truthy then
      if acc.1.any (fun p => p.1 == keyOfValue v) then
        (acc.1.map (fun p =>
          if p.1 == keyOfValue v then (keyOfValue v, mergeFill p.2 (mapRow row)) else p), acc.2)
      else
        (acc.1 ++ [(keyOfValue v, mapRow row)], acc.2)
    else
      (acc.1, acc.2 ++ [mapRow row])

/-- The statistics object of `normalizeData` (main.js lines 311-315). -/
structure Stats where
  merged : Nat
  total : Nat
  original : Nat
deriving DecidableEq, Repr

/-- The return value of `normalizeData`: on the early return for empty
input (main.js line 239) `mpnHeader` is `null` and `stats` is absent. -/
structure NormalizeResult where
  normalized : List Record
  mpnHeader : Option String
  stats : Option Stats
deriving DecidableEq, Repr

/-- The `normalized` local of `normalizeData` (main.js line 306):
`[...Array.from(uniqueMap.values()), ...nonMpnRows]` after the loop runs
over the whole input from the empty state. -/
def normalizeOutput (data : List Record) : List Record :=
  (data.foldl normStep ([], [])).1.map Prod.snd ++ (data.foldl normStep ([], [])).2

/-- The merge engine `normalizeData` (main.js lines 238-317): early return on empty input
(without a `stats` field); otherwise fold the per-row loop over the input
and emit the unique map's records (insertion order) followed by the
no-identity rows, with statistics. -/
def normalizeData (data : List Record) : NormalizeResult :=
  if data.isEmpty then ⟨[], none, none⟩
  else
    ⟨normalizeOutput data, some "MPN",
      some ⟨data.length - (normalizeOutput data).length,
        (normalizeOutput data).length, data.length⟩⟩

/-- JS `x || ""` on a property read (main.js line 156): the value when
truthy, else the empty string. -/
def jsOr : Option Value → Value
  | some v => if v.truthy then v else .str ""
  | none => .str ""

/-- The display-column map of `generateCondensedData` (main.js lines
141-151), in declared order: canonical master key to display name. -/
def importantMap : List (String × String) :=
  [ ("Manufacturer", "Manufacturer"),
    ("MPN", "MPN"),
    ("Min/Mult (MOQ)", "Min / Mult (MOQ)"),
    ("Unit Price", "Unit Price"),
    ("Stock Status", "Stock Status"),
    ("Quantity Avail.", "Quantity Avail."),
    ("Description", "Description"),
    ("Datasheet", "Datasheet"),
    ("Product Link", "Product Link") ]

/-- One output row of `generateCondensedData` (main.js lines 153-159):
`newRow[displayName] = row[masterKey] || ""` over `importantMap` in order. -/
def condenseRow (row : Record) : Record :=
  importantMap.foldl (fun acc p => jsSet acc p.2 (jsOr (jsGet row p.1))) []

/-- The condensed projector `generateCondensedData` (main.js lines 139-160). -/
def generateCondensedData (data : List Record) : List Record :=
  data.map condenseRow

/-- Append a key to an accumulator if not already present: the
first-occurrence order in which JS `Map.set` registers fresh keys. -/
def addKey (acc : List String) (k : String) : List String :=
  if acc.any (fun x => x == k) then acc else acc ++ [k]

/-- The distinct members of a key list in first-occurrence order. -/
def firstKeys (ks : List String) : List String := ks.foldl addKey []

/-! ### Lookup and assignment lemmas -/

theorem jsGet_cons (p : String × Value) (r : Record) (k : String) :
    jsGet (p :: r) k = if p.1 == k then some p.2 else jsGet r k := by
  by_cases h : p.1 == k <;> simp [jsGet, List.find?_cons, h]

theorem jsGet_jsSet_self (r : Record) (k : String) (v : Value) :
    jsGet (jsSet r k v) k = some v := by
  induction r with
  | nil => simp [jsSet, jsGet]
  | cons p rest ih =>
    by_cases h : p.1 == k
    · simp [jsSet, h, jsGet_cons]
    · simp [jsSet, h, jsGet_cons, ih]

theorem jsGet_jsSet_ne (r : Record) (k k' : String) (v : Value) (h : k' ≠ k) :
    jsGet (jsSet r k v) k' = jsGet r k' := by
  induction r with
  | nil => simp [jsSet, jsGet_cons, jsGet, (beq_iff_eq ..).not.mpr h.symm]
  | cons p rest ih =>
    by_cases hp : p.1 == k
    · have hpk : p.1 = k := by simpa using hp
      simp [jsSet, hp, jsGet_cons, (beq_iff_eq ..).not.mpr h.symm, hpk]
    · simp [jsSet, hp, jsGet_cons, ih]

theorem keys_jsSet (r : Record) (k : String) (v : Value) :
    (jsSet r k v).map Prod.fst =
      if r.any (fun p => p.1 == k) then r.map Prod.fst else r.map Prod.fst ++ [k] := by
  induction r with
  | nil => simp [jsSet]
  | cons p rest ih =>
    by_cases hp : p.1 == k
    · have hpk : p.1 = k := by simpa using hp
      simp [jsSet, hp, hpk]
    · by_cases hr : rest.any (fun q => q.1 == k) <;>
        simp [jsSet, hp, hr, ih]

/-! ### Merge-fill lemmas -/

theorem truthy_ne_emptyStr {v : Value} (h : v.truthy = true) : v ≠ .str "" := by
  cases v with
  | str s =>
    intro hc
    cases hc
    simp [Value.truthy] at h
  | num n => intro hc; cases hc

theorem jsGet_fillField_ne (e : Record) (k k' : String) (v : Value) (h : k' ≠ k) :
    jsGet (fillField e k v) k' = jsGet e k' := by
  unfold fillField
  split
  · exact jsGet_jsSet_ne e k k' v h
  · rfl

theorem jsGet_fillField_self (e : Record) (k : String) (v : Value) :
    jsGet (fillField e k v) k =
      if (jsGet e k = none ∨ jsGet e k = some (.str "")) ∧ v ≠ .str "" then some v
      else jsGet e k := by
  unfold fillField
  by_cases h : (jsGet e k = none ∨ jsGet e k = some (.str "")) ∧ v ≠ .str ""
  · have hb : ((jsGet e k == none || jsGet e k == some (.str "")) && (v != .str "")) = true := by
      rcases h with ⟨h1, h2⟩
      rcases h1 with h1 | h1 <;> simp [h1, h2]
    rw [hb]
    simp [h, jsGet_jsSet_self]
  · have hb : ((jsGet e k == none || jsGet e k == some (.str "")) && (v != .str "")) = false := by
      rw [Bool.and_eq_false_iff]
      by_cases h2 : v = .str ""
      · right; simp [h2]
      · left
        have h1 : ¬(jsGet e k = none ∨ jsGet e k = some (.str "")) := fun hc => h ⟨hc, h2⟩
        push_neg at h1
        simp [h1.1, h1.2]
    rw [hb]
    simp [h]

theorem jsGet_mergeFill_not_mem (e incoming : Record) (k : String)
    (h : k ∉ incoming.map Prod.fst) :
    jsGet (mergeFill e incoming) k = jsGet e k := by
  induction incoming generalizing e with
  | nil => rfl
  | cons p rest ih =>
    simp only [List.map_cons, List.mem_cons, not_or] at h
    show jsGet (mergeFill (fillField e p.1 p.2) rest) k = jsGet e k
    rw [ih _ h.2, jsGet_fillField_ne _ _ _ _ h.1]

theorem jsGet_mergeFill_truthy (e incoming : Record) (k : String) (v : Value)
    (hv : jsGet e k = some v) (ht : v.truthy = true) :
    jsGet (mergeFill e incoming) k = some v := by
  induction incoming generalizing e with
  | nil => exact hv
  | cons p rest ih =>
    show jsGet (mergeFill (fillField e p.1 p.2) rest) k = some v
    refine ih _ ?_
    by_cases hp : k = p.1
    · rw [← hp, jsGet_fillField_self]
      have hcond : ¬((jsGet e k = none ∨ jsGet e k = some (.str "")) ∧ p.2 ≠ .str "") := by
        rintro ⟨h1 | h1, -⟩
        · rw [hv] at h1; cases h1
        · rw [hv] at h1
          exact truthy_ne_emptyStr ht (Option.some.inj h1)
      rw [if_neg hcond]
      exact hv
    · rw [jsGet_fillField_ne _ _ _ _ hp]
      exact hv

/-- C1: Merge-fill never overwrites and fills only blanks: for a field `k`
present on the incoming record (with value `w`), the resident record's
value at `k` after the merge is `w` exactly when the resident's value was
absent or the empty string and `w` is not the empty string; in every
other case the resident's value at `k` is unchanged.  (An enumerated
incoming value is never `undefined`, so "incoming neither absent nor
empty" is `w ≠ ""`.) -/
theorem mergeFill_blank_fill_semantics (existing incoming : Record) (k : String) (w : Value)
    (hnd : (incoming.map Prod.fst).Nodup) (hw : jsGet incoming k = some w) :
    jsGet (mergeFill existing incoming) k =
      if (jsGet existing k = none ∨ jsGet existing k = some (.str "")) ∧ w ≠ .str ""
      then some w else jsGet existing k := by
  induction incoming generalizing existing with
  | nil => cases hw
  | cons p rest ih =>
    rw [jsGet_cons] at hw
    rw [List.map_cons, List.nodup_cons] at hnd
    show jsGet (mergeFill (fillField existing p.1 p.2) rest) k = _
    by_cases hp : p.1 == k
    · have hpk : p.1 = k := by simpa using hp
      rw [if_pos hp] at hw
      have hw2 : w = p.2 := (Option.some.inj hw).symm
      subst hpk
      rw [jsGet_mergeFill_not_mem _ _ _ hnd.1, jsGet_fillField_self, hw2]
    · rw [if_neg hp] at hw
      rw [ih _ hnd.2 hw, jsGet_fillField_ne _ _ _ _ (fun hc => hp (by simp [hc]))]

/-! ### The fold invariant of the normalize loop -/

/-- Invariant of the unique map: every resident record has a truthy `MPN`
and its identity key is the key it is stored under. -/
def UMInv (um : List (String × Record)) : Prop :=
  ∀ p ∈ um, hasIdentity p.2 = true ∧ recordKey p.2 = p.1

theorem hasIdentity_iff (r : Record) :
    hasIdentity r = true ↔ ∃ v, jsGet r "MPN" = some v ∧ v.truthy = true := by
  unfold hasIdentity
  cases h : jsGet r "MPN" <;> simp [truthyOpt, h]

theorem mergeFill_preserves_identity (e i : Record) (h : hasIdentity e = true) :
    hasIdentity (mergeFill e i) = true ∧ recordKey (mergeFill e i) = recordKey e := by
  obtain ⟨v, hv, ht⟩ := (hasIdentity_iff e).mp h
  have hm := jsGet_mergeFill_truthy e i "MPN" v hv ht
  constructor
  · rw [hasIdentity_iff]
    exact ⟨v, hm, ht⟩
  · unfold recordKey
    rw [hm, hv]

theorem map_fst_mapReplace (um : List (String × Record)) (key : String)
    (g : String × Record → Record) :
    (um.map (fun p => if p.1 == key then (key, g p) else p)).map Prod.fst
      = um.map Prod.fst := by
  induction um with
  | nil => rfl
  | cons p rest ih =>
    simp only [List.map_cons, ih]
    by_cases hp : p.1 == key
    · have hpk : p.1 = key := by simpa using hp
      rw [if_pos hp]
      simp [hpk]
    · rw [if_neg hp]

theorem UMInv_mapReplace (um : List (String × Record)) (key : String) (mapped : Record)
    (hinv : UMInv um) :
    UMInv (um.map (fun p => if p.1 == key then (key, mergeFill p.2 mapped) else p)) := by
  intro q hq
  rw [List.mem_map] at hq
  obtain ⟨p, hp, rfl⟩ := hq
  obtain ⟨h1, h2⟩ := hinv p hp
  by_cases hpk : p.1 == key
  · have hm := mergeFill_preserves_identity p.2 mapped h1
    simp only [hpk, if_pos]
    refine ⟨hm.1, ?_⟩
    rw [hm.2, h2]
    simpa using hpk
  · simp only [hpk]
    exact ⟨h1, h2⟩

theorem UMInv_append (um : List (String × Record)) (key : String) (mapped : Record)
    (hinv : UMInv um) (h1 : hasIdentity mapped = true) (h2 : recordKey mapped = key) :
    UMInv (um ++ [(key, mapped)]) := by
  intro q hq
  rw [List.mem_append] at hq
  rcases hq with hq | hq
  · exact hinv q hq
  · rw [List.mem_singleton] at hq
    subst hq
    exact ⟨h1, h2⟩

theorem any_map_fst (um : List (String × Record)) (key : String) :
    (um.map Prod.fst).any (fun x => x == key) = um.any (fun p => p.1 == key) := by
  induction um with
  | nil => rfl
  | cons p rest ih => simp [ih]

/-- The loop of `normalizeData`, folded over any prefix from any state
satisfying the invariant: the invariant is preserved, the unique map's
key list is the first-occurrence registration of the identity keys of the
keyed mapped rows, and the no-identity rows are exactly the mapped rows
with falsy `MPN`, appended in input order. -/
theorem foldl_normStep_spec (data : List Record) (um : List (String × Record))
    (nm : List Record) (hinv : UMInv um) :
    UMInv (data.foldl normStep (um, nm)).1 ∧
    (data.foldl normStep (um, nm)).1.map Prod.fst =
      (((data.map mapRow).filter hasIdentity).map recordKey).foldl addKey (um.map Prod.fst) ∧
    (data.foldl normStep (um, nm)).2 =
      nm ++ (data.map mapRow).filter (fun r => !hasIdentity r) := by
  induction data generalizing um nm with
  | nil => simpa using hinv
  | cons row rest ih =>
    simp only [List.foldl_cons, List.map_cons]
    cases hm : jsGet (mapRow row) "MPN" with
    | none =>
      have hid : hasIdentity (mapRow row) = false := by
        simp [hasIdentity, hm, truthyOpt]
      have hns : normStep (um, nm) row = (um, nm ++ [mapRow row]) := by
        unfold normStep
        rw [hm]
      rw [hns]
      obtain ⟨i1, i2, i3⟩ := ih um (nm ++ [mapRow row]) hinv
      refine ⟨i1, ?_, ?_⟩
      · rw [i2]
        simp [List.filter_cons, hid]
      · rw [i3]
        simp [List.filter_cons, hid]
    | some v =>
      by_cases hv : v.truthy
      · have hid : hasIdentity (mapRow row) = true := by
          simp [hasIdentity, hm, truthyOpt, hv]
        have hkey : recordKey (mapRow row) = keyOfValue v := by
          simp [recordKey, hm]
        by_cases hmem : um.any (fun p => p.1 == keyOfValue v)
        · have hns : normStep (um, nm) row =
              (um.map (fun p => if p.1 == keyOfValue v
                then (keyOfValue v, mergeFill p.2 (mapRow row)) else p), nm) := by
            unfold normStep
            rw [hm]
            simp [hv, hmem]
          rw [hns]
          have hinv2 := UMInv_mapReplace um (keyOfValue v) (mapRow row) hinv
          obtain ⟨i1, i2, i3⟩ := ih _ nm hinv2
          refine ⟨i1, ?_, ?_⟩
          · rw [i2, map_fst_mapReplace]
            have hadd : addKey (um.map Prod.fst) (keyOfValue v) = um.map Prod.fst := by
              unfold addKey
              rw [any_map_fst, if_pos hmem]
            simp [List.filter_cons, hid, hkey, List.foldl_cons, hadd]
          · rw [i3]
            simp [List.filter_cons, hid]
        · have hns : normStep (um, nm) row = (um ++ [(keyOfValue v, mapRow row)], nm) := by
            unfold normStep
            rw [hm]
            simp [hv, hmem]
          rw [hns]
          have hinv2 := UMInv_append um (keyOfValue v) (mapRow row) hinv hid hkey
          obtain ⟨i1, i2, i3⟩ := ih _ nm hinv2
          refine ⟨i1, ?_, ?_⟩
          · rw [i2]
            have hadd : addKey (um.map Prod.fst) (keyOfValue v)
                = um.map Prod.fst ++ [keyOfValue v] := by
              unfold addKey
              rw [any_map_fst, if_neg hmem]
            simp [List.filter_cons, hid, hkey, List.foldl_cons, hadd]
          · rw [i3]
            simp [List.filter_cons, hid]
      · have hid : hasIdentity (mapRow row) = false := by
          simp [hasIdentity, hm, truthyOpt, hv]
        have hns : normStep (um, nm) row = (um, nm ++ [mapRow row]) := by
          unfold normStep
          rw [hm]
          simp [hv]
        rw [hns]
        obtain ⟨i1, i2, i3⟩ := ih um (nm ++ [mapRow row]) hinv
        refine ⟨i1, ?_, ?_⟩
        · rw [i2]
          simp [List.filter_cons, hid]
        · rw [i3]
          simp [List.filter_cons, hid]

/-! ### First-occurrence key registration -/

theorem mem_addKey (acc : List String) (k x : String) :
    x ∈ addKey acc k ↔ x ∈ acc ∨ x = k := by
  unfold addKey
  by_cases h : acc.any (fun y => y == k)
  · rw [if_pos h]
    rw [List.any_eq_true] at h
    obtain ⟨y, hy, hyk⟩ := h
    have : y = k := by simpa using hyk
    subst this
    constructor
    · exact Or.inl
    · rintro (hx | rfl)
      · exact hx
      · exact hy
  · rw [if_neg h]
    simp

theorem not_mem_of_addKey_fresh (acc : List String) (k : String)
    (h : ¬ acc.any (fun y => y == k) = true) : k ∉ acc := by
  intro hk
  exact h (List.any_eq_true.mpr ⟨k, hk, by simp⟩)

theorem mem_foldl_addKey (l : List String) (acc : List String) (x : String) :
    x ∈ l.foldl addKey acc ↔ x ∈ acc ∨ x ∈ l := by
  induction l generalizing acc with
  | nil => simp
  | cons k ks ih =>
    rw [List.foldl_cons, ih, mem_addKey]
    simp [or_assoc, or_comm, List.mem_cons]
    tauto

theorem nodup_foldl_addKey (l : List String) (acc : List String) (h : acc.Nodup) :
    (l.foldl addKey acc).Nodup := by
  induction l generalizing acc with
  | nil => exact h
  | cons k ks ih =>
    rw [List.foldl_cons]
    refine ih _ ?_
    unfold addKey
    by_cases hk : acc.any (fun y => y == k)
    · rw [if_pos hk]; exact h
    · rw [if_neg hk]
      exact List.Nodup.append h (List.nodup_singleton k)
        (by simpa using not_mem_of_addKey_fresh acc k hk)

theorem nodup_firstKeys (l : List String) : (firstKeys l).Nodup :=
  nodup_foldl_addKey l [] List.nodup_nil

theorem mem_firstKeys (l : List String) (x : String) : x ∈ firstKeys l ↔ x ∈ l := by
  unfold firstKeys
  rw [mem_foldl_addKey]
  simp

/-- The length of the first-occurrence registration of a key list is the
number of distinct keys in it. -/
theorem length_firstKeys (l : List String) : (firstKeys l).length = l.toFinset.card := by
  have h1 : (firstKeys l).toFinset = l.toFinset := by
    ext x
    simp [List.mem_toFinset, mem_firstKeys]
  rw [← List.toFinset_card_of_nodup (nodup_firstKeys l), h1]

/-! ### Normalization results -/

theorem UMInv_nil : UMInv [] := fun p hp => absurd hp (List.not_mem_nil p)

theorem normalizeData_eq_of_ne_nil (data : List Record) (hne : data ≠ []) :
    normalizeData data = ⟨normalizeOutput data, some "MPN",
      some ⟨data.length - (normalizeOutput data).length,
        (normalizeOutput data).length, data.length⟩⟩ := by
  unfold normalizeData
  rw [if_neg (by simpa using hne)]

theorem map_recordKey_of_UMInv (um : List (String × Record)) (hinv : UMInv um) :
    (um.map Prod.snd).map recordKey = um.map Prod.fst := by
  induction um with
  | nil => rfl
  | cons p rest ih =>
    simp only [List.map_cons]
    rw [(hinv p (List.mem_cons_self p rest)).2,
      ih (fun q hq => hinv q (List.mem_cons_of_mem p hq))]

/-- C4: Statistics conservation law: whenever `normalizeData` returns a
stats object, `original = total + merged`, `original` is the input record
count, `total` is the output length, and `total` is the number of
distinct identity keys among the keyed mapped rows plus the number of
no-identity rows. -/
theorem normalizeData_stats_conservation (data : List Record) (s : Stats)
    (hs : (normalizeData data).stats = some s) :
    s.original = s.total + s.merged ∧
    s.original = data.length ∧
    s.total = (normalizeData data).normalized.length ∧
    s.total = (((data.map mapRow).filter hasIdentity).map recordKey).toFinset.card
      + ((data.map mapRow).filter (fun r => !hasIdentity r)).length := by
  by_cases hne : data = []
  · subst hne
    simp [normalizeData] at hs
  · rw [normalizeData_eq_of_ne_nil data hne] at hs ⊢
    obtain rfl : s = ⟨data.length - (normalizeOutput data).length,
        (normalizeOutput data).length, data.length⟩ := (Option.some.inj hs).symm
    obtain ⟨i1, i2, i3⟩ := foldl_normStep_spec data [] [] UMInv_nil
    have hlen : (normalizeOutput data).length
        = (((data.map mapRow).filter hasIdentity).map recordKey).toFinset.card
          + ((data.map mapRow).filter (fun r => !hasIdentity r)).length := by
      unfold normalizeOutput
      rw [List.length_append, List.length_map]
      congr 1
      · have hm : (data.foldl normStep (([] : List (String × Record)), ([] : List Record))).1.length
            = ((data.foldl normStep (([] : List (String × Record)), ([] : List Record))).1.map Prod.fst).length :=
          (List.length_map _ _).symm
        rw [hm, i2]
        exact length_firstKeys _
      · rw [i3]
        simp
    have hle : (normalizeOutput data).length ≤ data.length := by
      rw [hlen]
      have h1 : (((data.map mapRow).filter hasIdentity).map recordKey).toFinset.card
          ≤ ((data.map mapRow).filter hasIdentity).length := by
        refine le_trans (List.toFinset_card_le _) ?_
        rw [List.length_map]
      have h2 := List.length_eq_length_filter_add (l := data.map mapRow) hasIdentity
      rw [List.length_map] at h2
      omega
    exact ⟨by simp only [Stats.original, Stats.total, Stats.merged]; omega, rfl, rfl, hlen⟩

/-- C5: Output ordering: the normalized output is a keyed group (every
record with a truthy `MPN`, one per distinct identity key, in
first-occurrence order of the keys) followed by exactly the no-identity
mapped rows in original input order. -/
theorem normalizeData_output_ordering (data : List Record) :
    ∃ groupA,
      (normalizeData data).normalized
        = groupA ++ (data.map mapRow).filter (fun r => !hasIdentity r) ∧
      (∀ r ∈ groupA, hasIdentity r = true) ∧
      groupA.map recordKey = firstKeys (((data.map mapRow).filter hasIdentity).map recordKey) ∧
      (groupA.map recordKey).Nodup := by
  by_cases hne : data = []
  · subst hne
    exact ⟨[], by simp [normalizeData], by simp, by simp [firstKeys], by simp⟩
  · obtain ⟨i1, i2, i3⟩ := foldl_normStep_spec data [] [] UMInv_nil
    refine ⟨(data.foldl normStep ([], [])).1.map Prod.snd, ?_, ?_, ?_, ?_⟩
    · rw [normalizeData_eq_of_ne_nil data hne]
      show normalizeOutput data = _
      unfold normalizeOutput
      rw [i3]
      simp
    · intro r hr
      rw [List.mem_map] at hr
      obtain ⟨p, hp, rfl⟩ := hr
      exact (i1 p hp).1
    · rw [map_recordKey_of_UMInv _ i1, i2]
      rfl
    · rw [map_recordKey_of_UMInv _ i1, i2]
      exact nodup_foldl_addKey _ _ (by simp)

/-! ### Whitespace-only and falsy MPN values -/

/-- Input refuting C2: two records whose `MPN` is whitespace-only. -/
def wsMpnInput : List Record :=
  [ [("MPN", Value.str " ")],
    [("MPN", Value.str "  "), ("Description", Value.str "d")] ]

/-- C2 counterexample: two records with whitespace-only `MPN` strings do
NOT land unchanged in the no-identity group; they are both keyed under
the empty identity key and merged into one record (`merged = 1`), so the
output is a single record rather than the two unchanged inputs. -/
theorem wsMpn_records_merge :
    (normalizeData wsMpnInput).normalized
      = [[("MPN", Value.str " "), ("Description", Value.str "d")]] ∧
    (normalizeData wsMpnInput).stats = some ⟨1, 1, 2⟩ ∧
    (normalizeData wsMpnInput).normalized
      ≠ [[("MPN", Value.str " ")], [("MPN", Value.str "  "), ("Description", Value.str "d")]] := by
  decide

/-- C2 amended: a record whose canonical `MPN` field is a whitespace-only
(nonempty) string is truthy, hence treated as keyed: its identity key is
the empty string, the no-identity group is left untouched by its
processing step, and the empty string is registered among the unique
map's keys (so such records merge with one another rather than pass
through). -/
theorem wsMpn_record_is_keyed (um : List (String × Record)) (nm : List Record)
    (row : Record) (s : String)
    (h1 : jsGet (mapRow row) "MPN" = some (.str s)) (h2 : s ≠ "")
    (h3 : jsTrim s = "") :
    hasIdentity (mapRow row) = true ∧
    recordKey (mapRow row) = "" ∧
    (normStep (um, nm) row).2 = nm ∧
    "" ∈ (normStep (um, nm) row).1.map Prod.fst := by
  have htr : Value.truthy (.str s) = true := by simp [Value.truthy, h2]
  have hkey : keyOfValue (.str s) = "" := by
    unfold keyOfValue
    rw [Value.jsToString, h3]
    rfl
  refine ⟨?_, ?_, ?_, ?_⟩
  · simp [hasIdentity, h1, truthyOpt, htr]
  · simp [recordKey, h1, hkey]
  · unfold normStep
    rw [h1]
    simp only [htr, if_true]
    by_cases hmem : um.any (fun p => p.1 == keyOfValue (.str s)) <;> simp [hmem]
  · unfold normStep
    rw [h1]
    simp only [htr, if_true]
    by_cases hmem : um.any (fun p => p.1 == keyOfValue (.str s))
    · rw [if_pos hmem]
      rw [List.any_eq_true] at hmem
      obtain ⟨p, hp, hpk⟩ := hmem
      have hpk2 : p.1 = keyOfValue (.str s) := by simpa using hpk
      show "" ∈ _
      rw [map_fst_mapReplace]
      rw [← hkey]
      rw [← hpk2]
      exact List.mem_map_of_mem Prod.fst hp
    · rw [if_neg hmem]
      rw [hkey] at hmem ⊢
      simp

/-- C10: a record whose mapped `MPN` field is present but falsy (such as
the number 0) is treated as having no identity: the loop appends the
mapped row unchanged to the no-identity group and leaves the unique map
untouched, so it is never merged. -/
theorem falsy_mpn_no_identity (um : List (String × Record)) (nm : List Record)
    (row : Record) (v : Value)
    (h1 : jsGet (mapRow row) "MPN" = some v) (h2 : v.truthy = false) :
    hasIdentity (mapRow row) = false ∧
    normStep (um, nm) row = (um, nm ++ [mapRow row]) := by
  refine ⟨?_, ?_⟩
  · simp [hasIdentity, h1, truthyOpt, h2]
  · unfold normStep
    rw [h1]
    simp [h2]

/-- Witness for C10 at the record whose `MPN` is the number 0. -/
theorem falsy_mpn_no_identity_witness :
    hasIdentity (mapRow [("MPN", Value.num 0)]) = false ∧
    normStep ([], []) [("MPN", Value.num 0)] = ([], [] ++ [mapRow [("MPN", Value.num 0)]]) :=
  falsy_mpn_no_identity [] [] [("MPN", Value.num 0)] (Value.num 0) (by decide) (by decide)

/-- Witness for the amended C2 at the record whose `MPN` is `" "`. -/
theorem wsMpn_record_is_keyed_witness :
    hasIdentity (mapRow [("MPN", Value.str " ")]) = true ∧
    recordKey (mapRow [("MPN", Value.str " ")]) = "" ∧
    (normStep ([], []) [("MPN", Value.str " ")]).2 = [] ∧
    "" ∈ (normStep ([], []) [("MPN", Value.str " ")]).1.map Prod.fst :=
  wsMpn_record_is_keyed [] [] [("MPN", Value.str " ")] " " (by decide) (by decide) (by decide)

/-! ### Empty input -/

/-- C3 counterexample: on the empty input `normalizeData` takes the early
return and the result carries no stats object at all, in particular not
a zeroed one. -/
theorem normalizeData_empty_no_stats :
    (normalizeData []).stats = none ∧
    (normalizeData []).stats ≠ some ⟨0, 0, 0⟩ := by
  decide

/-- C3 amended: for the empty input sequence, `normalizeData` returns the
empty normalized output with `mpnHeader` null and NO stats field (the
early return at main.js line 239 omits `stats`). -/
theorem normalizeData_empty : normalizeData [] = ⟨[], none, none⟩ := rfl

/-! ### Header canonicalization -/

/-- C6: the header canonicalizer is a total function on strings: whenever
some schema entry's alias list matches the cleaned input, it returns the
canonical name of a matching entry, and when no entry matches it returns
the original header unchanged; concretely, `" mfr.  "` and `"MFR."` both
canonicalize to `"Manufacturer"`. -/
theorem getMasterKey_total_spec (h : String) :
    ((∃ p ∈ mapping, entryMatches h p = true) →
      ∃ p ∈ mapping, entryMatches h p = true ∧ getMasterKey h = p.1) ∧
    ((∀ p ∈ mapping, entryMatches h p = false) → getMasterKey h = h) ∧
    getMasterKey " mfr.  " = "Manufacturer" ∧
    getMasterKey "MFR." = "Manufacturer" := by
  refine ⟨?_, ?_, by decide, by decide⟩
  · intro hex
    unfold getMasterKey
    cases hf : mapping.find? (entryMatches h) with
    | none =>
      rw [List.find?_eq_none] at hf
      obtain ⟨p, hp, hm⟩ := hex
      exact absurd hm (hf p hp)
    | some p =>
      exact ⟨p, List.mem_of_find?_eq_some hf, List.find?_some hf, rfl⟩
  · intro hall
    unfold getMasterKey
    cases hf : mapping.find? (entryMatches h) with
    | none => rfl
    | some p =>
      have hp := List.find?_some hf
      rw [hall p (List.mem_of_find?_eq_some hf)] at hp
      cases hp

/-- Witness for C6: an unrecognized header passes through unchanged. -/
theorem getMasterKey_total_spec_witness :
    getMasterKey "Internal Notes" = "Internal Notes" :=
  (getMasterKey_total_spec "Internal Notes").2.1 (by decide)

theorem find?_of_first_match {α : Type} (p : α → Bool) (d : α) :
    ∀ (l : List α) (i : Nat), i < l.length → p (l.getD i d) = true →
      (∀ k, k < i → p (l.getD k d) = false) → l.find? p = some (l.getD i d)
  | [], i, hi, _, _ => absurd hi (by simp)
  | x :: xs, 0, _, hm, _ => by
    rw [List.getD_cons_zero] at hm ⊢
    exact List.find?_cons_of_pos xs hm
  | x :: xs, j + 1, hi, hm, he => by
    have hx : p x = false := by simpa using he 0 (Nat.succ_pos j)
    rw [List.getD_cons_succ] at hm ⊢
    rw [List.find?_cons_of_neg xs (by simp [hx])]
    exact find?_of_first_match p d xs j (by simpa using hi) hm
      (fun k hk => by simpa using he (k + 1) (Nat.succ_lt_succ hk))

/-- C7: first-match priority: if the schema entry at position `i` matches
the header and no earlier entry does, the canonicalizer returns that
entry's canonical name; with the shipped table, `"Availability"` matches
both entry 6 (`Stock Status`) and entry 7 (`Quantity Avail.`) and
canonicalizes to `"Stock Status"`, the field declared first. -/
theorem getMasterKey_first_match_priority :
    (∀ (h : String) (i : Nat), i < mapping.length →
      entryMatches h (mapping.getD i ("", [])) = true →
      (∀ k, k < i → entryMatches h (mapping.getD k ("", [])) = false) →
      getMasterKey h = (mapping.getD i ("", [])).1) ∧
    entryMatches "Availability" (mapping.getD 6 ("", [])) = true ∧
    (mapping.getD 6 ("", [])).1 = "Stock Status" ∧
    entryMatches "Availability" (mapping.getD 7 ("", [])) = true ∧
    (mapping.getD 7 ("", [])).1 = "Quantity Avail." ∧
    getMasterKey "Availability" = "Stock Status" := by
  refine ⟨?_, by decide, by decide, by decide, by decide, by decide⟩
  intro h i hi hm he
  unfold getMasterKey
  rw [find?_of_first_match (entryMatches h) ("", []) mapping i hi hm he]

/-- Witness for C7 at the header `"Availability"` and schema position 6. -/
theorem getMasterKey_first_match_priority_witness :
    getMasterKey "Availability" = (mapping.getD 6 ("", [])).1 :=
  getMasterKey_first_match_priority.1 "Availability" 6 (by decide) (by decide)
    (by decide)

/-! ### Row mapping collisions -/

/-- C9: last one wins within a single record: the canonical record's
value at a canonical field `k` is the value of the last raw header in the
record's enumeration order that canonicalizes to `k` (and absent when no
header does). -/
theorem mapRow_last_wins (row : Record) (k : String) :
    jsGet (mapRow row) k
      = ((row.filter (fun p => getMasterKey p.1 == k)).getLast?).map Prod.snd := by
  induction row using List.reverseRecOn with
  | nil => rfl
  | append_singleton xs p ih =>
    unfold mapRow at ih ⊢
    rw [List.foldl_append]
    simp only [List.foldl_cons, List.foldl_nil]
    by_cases hm : getMasterKey p.1 == k
    · have hmk : getMasterKey p.1 = k := by simpa using hm
      rw [hmk, jsGet_jsSet_self, List.filter_append]
      simp [hm, List.getLast?_concat]
    · have hne : k ≠ getMasterKey p.1 := fun hc => hm (by simp [hc])
      rw [jsGet_jsSet_ne _ _ _ _ hne, ih, List.filter_append]
      simp [hm]

/-! ### Condensed projection -/

theorem condenseRow_keys (row : Record) :
    (condenseRow row).map Prod.fst = importantMap.map Prod.snd := by
  simp [condenseRow, importantMap, jsSet]

theorem condenseRow_get (row : Record) (mk dn : String)
    (hmem : (mk, dn) ∈ importantMap) :
    jsGet (condenseRow row) dn = some (jsOr (jsGet row mk)) := by
  fin_cases hmem <;> simp [condenseRow, importantMap, jsSet, jsGet, List.find?]

theorem getD_generateCondensedData (data : List Record) (i : Nat) (hi : i < data.length) :
    (generateCondensedData data).getD i [] = condenseRow (data.getD i []) := by
  unfold generateCondensedData
  rw [List.getD_eq_getElem?_getD, List.getElem?_map, List.getD_eq_getElem?_getD,
    List.getElem?_eq_getElem hi]
  rfl

/-- C8 amended: the condensed projector preserves length and order, each
output row's keys are exactly the nine display columns of `importantMap`
in order (with the `Min / Mult (MOQ)` rename), and each display column
holds `row[masterKey] || ""`, i.e. the record's value at the canonical
field when that value is present and truthy, and the empty string when
the field is absent or its value is falsy (empty string or the number 0). -/
theorem generateCondensedData_projection (data : List Record) (i : Nat)
    (hi : i < data.length) :
    (generateCondensedData data).length = data.length ∧
    ((generateCondensedData data).getD i []).map Prod.fst = importantMap.map Prod.snd ∧
    ∀ p ∈ importantMap,
      jsGet ((generateCondensedData data).getD i []) p.2
        = some (jsOr (jsGet (data.getD i []) p.1)) := by
  refine ⟨List.length_map data condenseRow, ?_, ?_⟩
  · rw [getD_generateCondensedData data i hi]
    exact condenseRow_keys _
  · intro p hp
    rw [getD_generateCondensedData data i hi]
    exact condenseRow_get _ p.1 p.2 hp

/-- Witness for the amended C8 at a one-record input. -/
theorem generateCondensedData_projection_witness :
    (generateCondensedData [[("MPN", Value.str "A")]]).length
      = [[("MPN", Value.str "A")]].length ∧
    ((generateCondensedData [[("MPN", Value.str "A")]]).getD 0 []).map Prod.fst
      = importantMap.map Prod.snd ∧
    ∀ p ∈ importantMap,
      jsGet ((generateCondensedData [[("MPN", Value.str "A")]]).getD 0 []) p.2
        = some (jsOr (jsGet ([[("MPN", Value.str "A")]].getD 0 []) p.1)) :=
  generateCondensedData_projection [[("MPN", Value.str "A")]] 0 (by decide)

/-- C8 counterexample: a record holding the number 0 at `Unit Price` (a
present value) is projected to the empty string, not to its value. -/
theorem condense_zero_to_empty :
    jsGet ((generateCondensedData [[("Unit Price", Value.num 0)]]).getD 0 []) "Unit Price"
      = some (Value.str "") ∧
    some (Value.str "") ≠ some (Value.num 0) := by
  decide

/-! ### Remaining witnesses -/

/-- Witness for C1: a blank resident `Manufacturer` is filled by the
incoming non-empty value. -/
theorem mergeFill_blank_fill_semantics_witness :
    jsGet (mergeFill [("MPN", Value.str "X"), ("Manufacturer", Value.str "")]
        [("MPN", Value.str "Y"), ("Manufacturer", Value.str "Acme")]) "Manufacturer"
      = if (jsGet [("MPN", Value.str "X"), ("Manufacturer", Value.str "")] "Manufacturer" = none ∨
            jsGet [("MPN", Value.str "X"), ("Manufacturer", Value.str "")] "Manufacturer"
              = some (.str "")) ∧ Value.str "Acme" ≠ .str ""
        then some (Value.str "Acme")
        else jsGet [("MPN", Value.str "X"), ("Manufacturer", Value.str "")] "Manufacturer" :=
  mergeFill_blank_fill_semantics [("MPN", Value.str "X"), ("Manufacturer", Value.str "")]
    [("MPN", Value.str "Y"), ("Manufacturer", Value.str "Acme")] "Manufacturer"
    (Value.str "Acme") (by decide) (by decide)

/-- The spec's merge scenario, used as the witness input for C4. -/
def scenarioInput : List Record :=
  [ [("MPN", Value.str "X1"), ("Manufacturer", Value.str "Acme")],
    [("MPN", Value.str "x1"), ("Unit Price", Value.str "1.00")] ]

/-- Witness for C4 on the two-record merge scenario. -/
theorem normalizeData_stats_conservation_witness :
    (Stats.mk 1 1 2).original = (Stats.mk 1 1 2).total + (Stats.mk 1 1 2).merged ∧
    (Stats.mk 1 1 2).original = scenarioInput.length ∧
    (Stats.mk 1 1 2).total = (normalizeData scenarioInput).normalized.length ∧
    (Stats.mk 1 1 2).total
      = (((scenarioInput.map mapRow).filter hasIdentity).map recordKey).toFinset.card
        + ((scenarioInput.map mapRow).filter (fun r => !hasIdentity r)).length :=
  normalizeData_stats_conservation scenarioInput (Stats.mk 1 1 2) (by decide)

end SourcingTool
